import Mathlib

/-!
Verification of the `ig-fb-scraper` repository (`scraper.py`, `city_scraper.py`)
against its natural-language specification.

Modelling conventions:
* Python strings are modelled as `List Char` (`Str`).
* Python exceptions are modelled by `Option`: `none` means the corresponding
  Python call raised, `some v` that it returned `v`.
* `urllib.parse.urlparse` (CPython `urllib/parse.py`) is modelled for URL
  strings free of ASCII control characters, spaces, tabs and newlines (the
  only inputs that arise here); its `ValueError ("Invalid IPv6 URL")` for an
  authority component with unbalanced square brackets is modelled as `none`.
* The external collaborators (DuckDuckGo search, the Instagram and Facebook
  extractors) are opaque services and are passed in as function parameters
  (oracles); the Instagram extractor distinguishes the
  `QueryReturnedBadRequestException` ("bad request" / rate-limit) signal from
  generic failure, matching `instaloader`'s exception hierarchy.
* Side effects of the dispatch loops (extractor invocations, `time.sleep`,
  row accumulation) are recorded as an explicit event trace.
-/

/-- Python strings, modelled as lists of characters. -/
abbrev Str := List Char

/-! ### Generic string helpers (model of Python `str` methods) -/

/-- Split at the first occurrence of `c`: returns the part before the first
`c` and, when `c` occurs, the part after it (model of `str.split(c, 1)` /
`str.find(c)`). -/
def splitFirst (c : Char) : Str → Str × Option Str
  | [] => ([], none)
  | a :: t =>
    if a = c then ([], some t)
    else
      let r := splitFirst c t
      (a :: r.1, r.2)

/-- Split at the last occurrence of `c`: returns the part before the last `c`
and the part after it; when `c` does not occur, returns `(l, [])` (callers
guard on `c ∈ l`).  Model of `str.rfind(c)`. -/
def splitLast (c : Char) (l : Str) : Str × Str :=
  match splitFirst c l.reverse with
  | (rseg, some rinit) => (rinit.reverse, rseg.reverse)
  | (_, none) => (l, [])

/-- Model of Python `str.split(sep)` for a one-character separator: splits on
every occurrence, keeping empty segments (`"".split("/") == [""]`). -/
def splitSep (c : Char) : Str → List Str
  | [] => [[]]
  | a :: t =>
    let r := splitSep c t
    if a = c then [] :: r
    else
      match r with
      | [] => [[a]]
      | s :: ss => (a :: s) :: ss

/-- Model of Python `str.rstrip("/")`: removes every trailing `'/'`. -/
def rstripSlash (l : Str) : Str :=
  (l.reverse.dropWhile (fun c => c = '/')).reverse

/-- Model of the Python substring test `needle in hay`. -/
def strIn (needle hay : Str) : Bool :=
  hay.tails.any (fun t => needle.isPrefixOf t)

/-! ### Model of CPython `urllib.parse.urlsplit` / `urlparse` -/

/-- Characters allowed in a URL scheme (CPython `scheme_chars`). -/
def schemeChar (c : Char) : Bool :=
  c.isAlpha || c.isDigit || c = '+' || c = '-' || c = '.'

/-- Scheme extraction step of `urlsplit`: if the text before the first `':'`
is non-empty, starts with an ASCII letter and consists of scheme characters,
it is the (lowercased) scheme and the remainder follows the `':'`; otherwise
there is no scheme and the whole URL remains. -/
def splitScheme (u : Str) : Str × Str :=
  match splitFirst ':' u with
  | (pre, some rest) =>
    match pre with
    | [] => ([], u)
    | c0 :: _ =>
      if c0.isAlpha && pre.all schemeChar then (pre.map Char.toLower, rest)
      else ([], u)
  | (_, none) => ([], u)

/-- A character that ends the authority (netloc) component
(CPython `_splitnetloc` looks for `'/'`, `'?'` or `'#'`). -/
def netlocStop (c : Char) : Bool :=
  c = '/' || c = '?' || c = '#'

/-- Model of `_splitnetloc` (without the leading `"//"`, already consumed). -/
def splitNetloc (u : Str) : Str × Str :=
  (u.takeWhile (fun c => !netlocStop c), u.dropWhile (fun c => !netlocStop c))

/-- Netloc extraction step of `urlsplit`: an authority is present exactly when
the remainder after the scheme starts with `"//"`. -/
def netlocStage (r : Str) : Str × Str :=
  match r with
  | a :: b :: rest => if a = '/' ∧ b = '/' then splitNetloc rest else ([], r)
  | _ => ([], r)

/-- Result of `urlsplit`/`urlparse`.  `params` of `urlparse` is dropped (only
`scheme`, `netloc` and `path` are consumed by the repository). -/
structure SplitResult where
  scheme : Str
  netloc : Str
  path : Str
  query : Str
  fragment : Str
deriving DecidableEq, Repr

/-- Model of CPython `urlsplit`: scheme, then authority after `"//"`, then
fragment after the first `'#'`, then query after the first `'?'`.  Returns
`none` where CPython raises `ValueError ("Invalid IPv6 URL")`: an authority
containing `'['` without `']'` or vice versa. -/
def urlsplit (u : Str) : Option SplitResult :=
  let s := splitScheme u
  let n := netlocStage s.2
  if ('[' ∈ n.1 ∧ ']' ∉ n.1) ∨ (']' ∈ n.1 ∧ '[' ∉ n.1) then none
  else
    let f := splitFirst '#' n.2
    let fragment := match f.2 with | some x => x | none => []
    let q := splitFirst '?' f.1
    let query := match q.2 with | some x => x | none => []
    some ⟨s.1, n.1, q.1, query, fragment⟩

/-- Stage decomposition used in proofs: the scheme component of `urlsplit`. -/
def rawScheme (u : Str) : Str := (splitScheme u).1

/-- Stage decomposition used in proofs: the netloc component of `urlsplit`. -/
def rawNetloc (u : Str) : Str := (netlocStage (splitScheme u).2).1

/-- Stage decomposition used in proofs: the path component of `urlsplit`
(before the `params` split of `urlparse`). -/
def rawPath (u : Str) : Str :=
  (splitFirst '?' (splitFirst '#' (netlocStage (splitScheme u).2).2).1).1

/-- The condition under which CPython `urlsplit` raises
`ValueError ("Invalid IPv6 URL")`. -/
abbrev bracketBad (u : Str) : Prop :=
  ('[' ∈ rawNetloc u ∧ ']' ∉ rawNetloc u) ∨ (']' ∈ rawNetloc u ∧ '[' ∉ rawNetloc u)

/-- Schemes for which `urlparse` separates `params` from the path
(CPython `uses_params`). -/
def usesParams : List Str :=
  ["", "ftp", "hdl", "prospero", "http", "imap", "https", "shttp", "rtsp",
   "rtspu", "sip", "sips", "mms", "sftp", "tel"].map String.data

/-- Model of CPython `_splitparams`, returning only the path part: the params
start at the first `';'` in the last path segment. -/
def splitParamsPath (p : Str) : Str :=
  if '/' ∈ p then
    let s := splitLast '/' p
    match splitFirst ';' s.2 with
    | (pre, some _) => s.1 ++ '/' :: pre
    | (_, none) => p
  else (splitFirst ';' p).1

/-- Model of CPython `urlparse`: `urlsplit`, then `params` split off the path
when the scheme uses params and the path contains `';'`. -/
def urlparse (u : Str) : Option SplitResult :=
  (urlsplit u).map fun r =>
    if r.scheme ∈ usesParams ∧ ';' ∈ r.path then
      { r with path := splitParamsPath r.path }
    else r

/-! ### `scraper.py`: URL normalisation and identifier extraction -/

/-- The literal `"://"` used by the f-string in `search_social_links`. -/
def colonSlashSlash : Str := [':', '/', '/']

/-- The URL cleaning step inlined in `search_social_links`
(`f"{parsed.scheme}://{parsed.netloc}{parsed.path}".rstrip("/")`).
`none` models a `ValueError` escaping from `urlparse`. -/
def cleanUrl (u : Str) : Option Str :=
  (urlparse u).map fun p =>
    rstripSlash (p.scheme ++ colonSlashSlash ++ p.netloc ++ p.path)

/-- Model of `ensure_username_from_url`: first non-empty `'/'`-separated
segment of the parsed path, or the empty string. -/
def ensure_username_from_url (u : Str) : Option Str :=
  (urlparse u).map fun p =>
    (((splitSep '/' p.path).filter (fun s => s ≠ [])).headD [])

/-! ### `scraper.py`: link discovery (`search_social_links`) -/

/-- A search hit returned by the DuckDuckGo backend: a record with optional
`"href"` and `"url"` fields (`None` when the key is absent). -/
structure RawHit where
  href : Option Str
  url : Option Str
deriving DecidableEq, Repr

/-- Model of Python `a or b` on strings/`None`: `a` unless it is falsy. -/
def orElseStr (a : Option Str) (b : Str) : Str :=
  match a with
  | some s => if s = [] then b else s
  | none => b

/-- The raw URL of a hit: `r.get("href") or r.get("url") or ""`. -/
def hitUrl (r : RawHit) : Str :=
  orElseStr r.href (orElseStr r.url [])

/-- The result-collection loop of `search_social_links`: keep hits whose raw
URL contains the platform substring, clean each survivor.  `none` models a
`ValueError` escaping from `urlparse` and aborting the call. -/
def collectUrls (platform : Str) : List RawHit → Option (List Str)
  | [] => some []
  | r :: rs =>
    let u := hitUrl r
    if strIn platform u then
      match cleanUrl u with
      | none => none
      | some c => (collectUrls platform rs).map (fun us => c :: us)
    else collectUrls platform rs

/-- The deduplication loop shared by `search_social_links` and
`discover_profiles`: first occurrence wins, insertion order preserved
(the Python `set` of already-seen URLs is modelled as a list). -/
def dedupAcc (seen : List Str) : List Str → List Str
  | [] => []
  | u :: us => if u ∈ seen then dedupAcc seen us else u :: dedupAcc (u :: seen) us

/-- The pure part of `search_social_links`: filter/clean the given hits, then
deduplicate within the call. -/
def searchHits (platform : Str) (hits : List RawHit) : Option (List Str) :=
  (collectUrls platform hits).map (fun us => dedupAcc [] us)

/-- The search query built by `search_social_links`:
`f"{business_name} {platform.split('.')[0]} {platform}"`. -/
def buildQuery (businessName platform : Str) : Str :=
  businessName ++ ' ' :: (platform.takeWhile (fun c => c ≠ '.')) ++ ' ' :: platform

/-- Model of `search_social_links`; the DuckDuckGo text search is the oracle
`ddgs` (query and `max_results` to hit list; an unreachable backend or `None`
result is the empty list, as in `DDGS().text(...) or []`). -/
def search_social_links (ddgs : Str → Nat → List RawHit)
    (businessName platform : Str) (maxResults : Nat) : Option (List Str) :=
  searchHits platform (ddgs (buildQuery businessName platform) maxResults)

/-! ### `city_scraper.py`: cross-keyword aggregation (`discover_profiles`) -/

/-- The accumulation loop of `discover_profiles`: one search per keyword with
query term `f"{kw} {city}"`, results concatenated in keyword order. -/
def discoverRaw (ddgs : Str → Nat → List RawHit) (city platform : Str)
    (maxPerKeyword : Nat) : List Str → Option (List Str)
  | [] => some []
  | kw :: kws =>
    match search_social_links ddgs (kw ++ ' ' :: city) platform maxPerKeyword with
    | none => none
    | some us => (discoverRaw ddgs city platform maxPerKeyword kws).map (fun vs => us ++ vs)

/-- Model of `discover_profiles`: concatenated per-keyword results, then the
global first-seen-wins deduplication loop. -/
def discover_profiles (ddgs : Str → Nat → List RawHit) (city : Str)
    (keywords : List Str) (platform : Str) (maxPerKeyword : Nat) : Option (List Str) :=
  (discoverRaw ddgs city platform maxPerKeyword keywords).map (fun us => dedupAcc [] us)

/-! ### Extraction dispatchers (`scrape_city` in `city_scraper.py`,
`main` in `scraper.py`) -/

/-- A profile record: mapping from field name to (stringified) value. -/
abbrev Rec := List (Str × Str)

/-- Observable effects of one dispatch loop, in program order. -/
inductive Event where
  /-- the platform extractor was invoked with this username -/
  | attempt (uname : Str)
  /-- a successfully extracted record was appended to the row list -/
  | record (r : Rec)
  /-- `time.sleep(seconds)` ran -/
  | sleep (seconds : Nat)
deriving DecidableEq, Repr

/-- Outcome of one Instagram extraction (`extract_instagram_data`):
success, the distinguished `QueryReturnedBadRequestException`, or any other
exception. -/
inductive IgResult where
  | ok (r : Rec)
  | badRequest
  | err
deriving DecidableEq, Repr

/-- Outcome of one Facebook extraction (`extract_facebook_data`): success or
a generic exception. -/
inductive FbResult where
  | ok (r : Rec)
  | err
deriving DecidableEq, Repr

/-- Per-URL loop body shared by all four dispatch loops: extract the
username (a `ValueError` here is uncaught and aborts the whole loop), skip
silently when it is empty, otherwise run the platform-specific step. -/
def dispatchLoop (step : Str → List Event) : List Str → Option (List Event)
  | [] => some []
  | u :: us =>
    match ensure_username_from_url u with
    | none => none
    | some uname =>
      let evs := if uname = [] then [] else step uname
      (dispatchLoop step us).map (fun rest => evs ++ rest)

/-- Instagram step of `scrape_city`: a bad-request signal sleeps 300 seconds
and produces no record; a generic exception is logged and skipped. -/
def igStepCity (ig : Str → IgResult) (uname : Str) : List Event :=
  Event.attempt uname ::
    match ig uname with
    | .ok r => [Event.record r]
    | .badRequest => [Event.sleep 300]
    | .err => []

/-- Instagram step of `main` in `scraper.py`: every exception, the
bad-request signal included, is caught by the one generic handler; no sleep. -/
def igStepBusiness (ig : Str → IgResult) (uname : Str) : List Event :=
  Event.attempt uname ::
    match ig uname with
    | .ok r => [Event.record r]
    | .badRequest => []
    | .err => []

/-- Facebook step (identical in both entry points): success appends a
record, any exception is logged and skipped. -/
def fbStep (fb : Str → FbResult) (uname : Str) : List Event :=
  Event.attempt uname ::
    match fb uname with
    | .ok r => [Event.record r]
    | .err => []

/-- The records accumulated by a trace, in order (the `rows` list). -/
def recordsOf : List Event → List Rec
  | [] => []
  | Event.record r :: t => r :: recordsOf t
  | Event.attempt _ :: t => recordsOf t
  | Event.sleep _ :: t => recordsOf t

/-! ### `scraper.py`: CSV export (`save_to_csv`) -/

/-- Lexicographic comparison of strings by code point (Python `<=` on
`str`, as used by `sorted`). -/
def lexLe : Str → Str → Bool
  | [], _ => true
  | _ :: _, [] => false
  | a :: as, b :: bs => if a < b then true else if a = b then lexLe as bs else false

/-- `lexLe` as a relation, for `List.insertionSort`. -/
def lexLeRel (a b : Str) : Prop := lexLe a b = true

instance : DecidableRel lexLeRel := fun a b => by
  unfold lexLeRel; infer_instance

/-- Model of `save_to_csv`: `none` is the no-write path for an empty row
list; otherwise the header (the sorted set of all keys) and one row per
record, absent fields rendered as the empty string (`csv.DictWriter` with the
default `restval=""`). -/
def save_to_csv (rows : List Rec) : Option (List Str × List (List Str)) :=
  match rows with
  | [] => none
  | _ =>
    let fieldnames :=
      List.insertionSort lexLeRel (dedupAcc [] (rows.flatMap (fun r => r.map Prod.fst)))
    some (fieldnames, rows.map (fun r => fieldnames.map (fun f => (r.lookup f).getD [])))

/-! ### `scrape_city`: the full city run -/

/-- The platform tuple of both entry points. -/
def igDomain : Str := "instagram.com".data

/-- The second platform of the tuple. -/
def fbDomain : Str := "facebook.com".data

/-- Model of `scrape_city` (proxy selection and login diagnostics are pure
side effects with no influence on the collected data and are not recorded):
discover and dispatch Instagram profiles, then Facebook profiles, then
export.  `none` models an uncaught exception aborting the run. -/
def scrape_city (ddgs : Str → Nat → List RawHit) (ig : Str → IgResult)
    (fb : Str → FbResult) (city : Str) (keywords : List Str)
    (maxPerKeyword : Nat) :
    Option (List Event × Option (List Str × List (List Str))) :=
  match discover_profiles ddgs city keywords igDomain maxPerKeyword with
  | none => none
  | some igUrls =>
    match dispatchLoop (igStepCity ig) igUrls with
    | none => none
    | some igEvents =>
      match discover_profiles ddgs city keywords fbDomain maxPerKeyword with
      | none => none
      | some fbUrls =>
        match dispatchLoop (fbStep fb) fbUrls with
        | none => none
        | some fbEvents =>
          let events := igEvents ++ fbEvents
          some (events, save_to_csv (recordsOf events))

/-! ### Specification-side description of first-seen-wins deduplication -/

/-- First-seen-wins deduplication, stated structurally: keep the head, drop
every later occurrence of it, recurse.  Each element of the input keeps
exactly its first occurrence, and the output order is the order of first
occurrences. -/
def firstOcc : List Str → List Str
  | [] => []
  | a :: l => a :: firstOcc (l.filter (fun x => x ≠ a))
termination_by l => l.length
decreasing_by
  simp only [List.length_cons]
  exact Nat.lt_succ_of_le (List.length_filter_le _ _)

/-- Index of the first occurrence of `u` in a list (length when absent). -/
def idxOf (u : Str) : List Str → Nat
  | [] => 0
  | a :: l => if a = u then 0 else idxOf u l + 1

/-! ### Witness fixtures (concrete inputs used by witness theorems) -/

/-- Build a hit carrying only an `"href"` field. -/
def hitOf (s : String) : RawHit := { href := some s.data, url := none }

/-- Concrete search oracle for the aggregation witness: the two query terms
surface overlapping profile URLs. -/
def wDdgs : Str → Nat → List RawHit := fun q _ =>
  if q = ("k c i i.co").data then [hitOf "http://i.co/x/", hitOf "http://i.co/y"]
  else [hitOf "http://i.co/y/", hitOf "http://i.co/z"]

/-- Per-term discovery results matching `wDdgs`. -/
def wUs : Str → List Str := fun kw =>
  if kw = ['k'] then [("http://i.co/x").data, ("http://i.co/y").data]
  else [("http://i.co/y").data, ("http://i.co/z").data]

/-- A sample extracted record. -/
def wRec : Rec := [(("platform").data, ("instagram").data)]

/-- Instagram extractor that rate-limits exactly the username `joe`. -/
def wIg : Str → IgResult := fun un =>
  if un = ("joe").data then IgResult.badRequest else IgResult.ok wRec

/-- Instagram extractor that fails generically exactly on `joe`. -/
def wIgErr : Str → IgResult := fun un =>
  if un = ("joe").data then IgResult.err else IgResult.ok wRec

/-- Facebook extractor that fails generically exactly on `joe`. -/
def wFb : Str → FbResult := fun un =>
  if un = ("joe").data then FbResult.err else FbResult.ok wRec

/-- The spec's heterogeneous export example: field sets \x7ba,b\x7d and \x7ba,c\x7d. -/
def wRows : List Rec :=
  [[(['a'], ("1").data), (['b'], ("2").data)],
   [(['a'], ("3").data), (['c'], ("4").data)]]

/-! ### Lemmas about deduplication -/

theorem firstOcc_cons (a : Str) (l : List Str) :
    firstOcc (a :: l) = a :: firstOcc (l.filter (fun x => x ≠ a)) := by
  rw [firstOcc]

theorem mem_firstOcc (u : Str) (l : List Str) : u ∈ firstOcc l ↔ u ∈ l := by
  induction l using firstOcc.induct with
  | case1 => simp [firstOcc]
  | case2 a l ih =>
    rw [firstOcc_cons]
    constructor
    · intro h
      rcases List.mem_cons.1 h with h | h
      · exact h ▸ List.mem_cons_self a l
      · exact List.mem_cons_of_mem a (List.mem_of_mem_filter (ih.1 h))
    · intro h
      rcases List.mem_cons.1 h with h | h
      · exact h ▸ List.mem_cons_self _ _
      · by_cases hu : u = a
        · exact hu ▸ List.mem_cons_self _ _
        · exact List.mem_cons_of_mem a (ih.2 (List.mem_filter.2 ⟨h, by simp [hu]⟩))

theorem firstOcc_nodup (l : List Str) : (firstOcc l).Nodup := by
  induction l using firstOcc.induct with
  | case1 => simp [firstOcc]
  | case2 a l ih =>
    rw [firstOcc_cons]
    refine List.nodup_cons.2 ⟨fun h => ?_, ih⟩
    have := List.mem_filter.1 ((mem_firstOcc _ _).1 h)
    simp at this

theorem firstOcc_sublist (l : List Str) : (firstOcc l).Sublist l := by
  induction l using firstOcc.induct with
  | case1 => simp [firstOcc]
  | case2 a l ih =>
    rw [firstOcc_cons]
    exact List.Sublist.cons₂ a (ih.trans (List.filter_sublist l))

theorem dedupAcc_eq_firstOcc_filter (seen : List Str) (l : List Str) :
    dedupAcc seen l = firstOcc (l.filter (fun u => u ∉ seen)) := by
  induction l generalizing seen with
  | nil => simp [dedupAcc, firstOcc]
  | cons a l ih =>
    by_cases ha : a ∈ seen
    · rw [dedupAcc, if_pos ha, List.filter_cons, if_neg (by simp [ha]), ih]
    · rw [dedupAcc, if_neg ha, List.filter_cons, if_pos (by simp [ha]),
        firstOcc_cons, ih (a :: seen), List.filter_filter]
      congr 1
      refine congrArg firstOcc (List.filter_congr ?_)
      intro x _
      simp only [List.mem_cons, not_or, Bool.decide_and, decide_not]

theorem dedupAcc_nil_eq_firstOcc (l : List Str) : dedupAcc [] l = firstOcc l := by
  rw [dedupAcc_eq_firstOcc_filter]
  exact congrArg firstOcc (List.filter_eq_self.2 (fun a _ => by simp))

theorem idxOf_cons_self (u : Str) (l : List Str) : idxOf u (u :: l) = 0 := by
  simp [idxOf]

theorem idxOf_cons_ne (a u : Str) (l : List Str) (h : a ≠ u) :
    idxOf u (a :: l) = idxOf u l + 1 := by
  simp [idxOf, h]

theorem idxOf_filter_mono (p : Str → Bool) (t : List Str) (u v : Str)
    (hu : u ∈ t.filter p) (hv : v ∈ t.filter p)
    (h : idxOf u t ≤ idxOf v t) :
    idxOf u (t.filter p) ≤ idxOf v (t.filter p) := by
  induction t with
  | nil => simp at hu
  | cons b t ih =>
    by_cases pb : p b
    · rw [List.filter_cons_of_pos pb] at hu hv ⊢
      by_cases ub : b = u
      · rw [ub, idxOf_cons_self]
        exact Nat.zero_le _
      · by_cases vb : b = v
        · exfalso
          rw [vb, idxOf_cons_self] at h
          rw [idxOf_cons_ne _ _ _ (vb ▸ ub)] at h
          omega
        · rw [idxOf_cons_ne _ _ _ ub] at h ⊢
          rw [idxOf_cons_ne _ _ _ vb] at h ⊢
          have hu' : u ∈ t.filter p := by
            rcases List.mem_cons.1 hu with h' | h'
            · exact absurd h'.symm ub
            · exact h'
          have hv' : v ∈ t.filter p := by
            rcases List.mem_cons.1 hv with h' | h'
            · exact absurd h'.symm vb
            · exact h'
          exact Nat.succ_le_succ (ih hu' hv' (Nat.le_of_succ_le_succ h))
    · rw [List.filter_cons_of_neg pb] at hu hv ⊢
      have ub : b ≠ u := fun e => pb (e ▸ (List.mem_filter.1 hu).2)
      have vb : b ≠ v := fun e => pb (e ▸ (List.mem_filter.1 hv).2)
      rw [idxOf_cons_ne _ _ _ ub, idxOf_cons_ne _ _ _ vb] at h
      exact ih hu hv (Nat.le_of_succ_le_succ h)

theorem firstOcc_idxOf_mono (l : List Str) (u v : Str)
    (hu : u ∈ l) (hv : v ∈ l) (h : idxOf u l ≤ idxOf v l) :
    idxOf u (firstOcc l) ≤ idxOf v (firstOcc l) := by
  induction l using firstOcc.induct with
  | case1 => simp at hu
  | case2 a l ih =>
    rw [firstOcc_cons]
    by_cases ua : a = u
    · rw [ua, idxOf_cons_self]
      exact Nat.zero_le _
    · by_cases va : a = v
      · exfalso
        rw [va, idxOf_cons_self] at h
        rw [idxOf_cons_ne _ _ _ (va ▸ ua)] at h
        omega
      · have hu' : u ∈ l := by
          rcases List.mem_cons.1 hu with h' | h'
          · exact absurd h'.symm ua
          · exact h'
        have hv' : v ∈ l := by
          rcases List.mem_cons.1 hv with h' | h'
          · exact absurd h'.symm va
          · exact h'
        rw [idxOf_cons_ne _ _ _ ua] at h ⊢
        rw [idxOf_cons_ne _ _ _ va] at h ⊢
        have hum : u ∈ l.filter (fun x => x ≠ a) :=
          List.mem_filter.2 ⟨hu', by
            simp only [ne_eq, decide_not, Bool.not_eq_true', decide_eq_false_iff_not]
            exact fun e => ua (Eq.symm e)⟩
        have hvm : v ∈ l.filter (fun x => x ≠ a) :=
          List.mem_filter.2 ⟨hv', by
            simp only [ne_eq, decide_not, Bool.not_eq_true', decide_eq_false_iff_not]
            exact fun e => va (Eq.symm e)⟩
        have hle := idxOf_filter_mono (fun x => x ≠ a) l u v hum hvm
          (Nat.le_of_succ_le_succ h)
        exact Nat.succ_le_succ (ih hum hvm hle)

/-! ### Lemmas about the discovery loop -/

theorem discoverRaw_eq_flatMap (ddgs : Str → Nat → List RawHit)
    (city platform : Str) (m : Nat) (kws : List Str) (us : Str → List Str)
    (h : ∀ kw ∈ kws, search_social_links ddgs (kw ++ ' ' :: city) platform m = some (us kw)) :
    discoverRaw ddgs city platform m kws = some (kws.flatMap us) := by
  induction kws with
  | nil => simp [discoverRaw]
  | cons kw kws ih =>
    rw [discoverRaw, h kw (List.mem_cons_self _ _),
      ih (fun k hk => h k (List.mem_cons_of_mem _ hk))]
    simp

/-! ### Claim theorems -/

/-- C1: for every platform and every list of query terms, `discover_profiles`
returns the concatenation of the per-term discovery results (in term order)
deduplicated globally with first-seen-wins: each unique URL appears exactly
once (the output has no duplicates, is a sublist of the concatenation, and
has the same members), ordered by first occurrence across the concatenation
(first-occurrence indices are preserved monotonically). -/
theorem discover_profiles_global_dedup (ddgs : Str → Nat → List RawHit)
    (city platform : Str) (m : Nat) (kws : List Str) (us : Str → List Str)
    (h : ∀ kw ∈ kws, search_social_links ddgs (kw ++ ' ' :: city) platform m = some (us kw)) :
    discover_profiles ddgs city kws platform m = some (firstOcc (kws.flatMap us)) ∧
    (firstOcc (kws.flatMap us)).Sublist (kws.flatMap us) ∧
    (firstOcc (kws.flatMap us)).Nodup ∧
    (∀ u, u ∈ firstOcc (kws.flatMap us) ↔ u ∈ kws.flatMap us) ∧
    (∀ u v, u ∈ kws.flatMap us → v ∈ kws.flatMap us →
      idxOf u (kws.flatMap us) ≤ idxOf v (kws.flatMap us) →
      idxOf u (firstOcc (kws.flatMap us)) ≤ idxOf v (firstOcc (kws.flatMap us))) := by
  refine ⟨?_, firstOcc_sublist _, firstOcc_nodup _, fun u => mem_firstOcc u _,
    fun u v hu hv => firstOcc_idxOf_mono _ u v hu hv⟩
  rw [discover_profiles, discoverRaw_eq_flatMap ddgs city platform m kws us h]
  simp [dedupAcc_nil_eq_firstOcc]

/-- Witness for C1 at a concrete oracle with overlapping per-term results. -/
theorem discover_profiles_global_dedup_witness :
    discover_profiles wDdgs ['c'] [['k'], ['l']] ("i.co").data 5 =
      some [("http://i.co/x").data, ("http://i.co/y").data, ("http://i.co/z").data] := by
  have := (discover_profiles_global_dedup wDdgs ['c'] ("i.co").data 5
    [['k'], ['l']] wUs (by decide)).1
  rw [this, ← dedupAcc_nil_eq_firstOcc]
  decide

/-! ### Lemmas about the dispatch loops -/

theorem recordsOf_append (a b : List Event) :
    recordsOf (a ++ b) = recordsOf a ++ recordsOf b := by
  induction a with
  | nil => simp [recordsOf]
  | cons e t ih => cases e <;> simp [recordsOf, ih]

theorem dispatchLoop_append (step : Str → List Event) (a b : List Str) :
    dispatchLoop step (a ++ b) =
      match dispatchLoop step a with
      | none => none
      | some e1 => (dispatchLoop step b).map (fun e2 => e1 ++ e2) := by
  induction a with
  | nil =>
    cases hb : dispatchLoop step b <;> simp [dispatchLoop, hb]
  | cons u us ih =>
    rw [List.cons_append, dispatchLoop, dispatchLoop, ih]
    cases hu : ensure_username_from_url u with
    | none => rfl
    | some un =>
      cases ha : dispatchLoop step us with
      | none => rfl
      | some e1 =>
        cases hb : dispatchLoop step b <;> simp [List.append_assoc]

theorem dispatchLoop_mid (step : Str → List Event) (l1 l2 : List Str)
    (u un : Str) (e1 e2 : List Event)
    (h1 : dispatchLoop step l1 = some e1) (h2 : dispatchLoop step l2 = some e2)
    (hu : ensure_username_from_url u = some un) (hne : un ≠ []) :
    dispatchLoop step (l1 ++ u :: l2) = some (e1 ++ step un ++ e2) := by
  rw [dispatchLoop_append, h1, dispatchLoop, hu, h2]
  simp [hne, List.append_assoc]

theorem dispatchLoop_all_ok (step : Str → List Event) (l : List Str)
    (h : ∀ v ∈ l, ∃ uv, ensure_username_from_url v = some uv ∧ uv ≠ [] ∧
      ∃ r, step uv = [Event.attempt uv, Event.record r]) :
    ∃ evs, dispatchLoop step l = some evs ∧ (recordsOf evs).length = l.length := by
  induction l with
  | nil => exact ⟨[], rfl, rfl⟩
  | cons v t ih =>
    obtain ⟨uv, huv, hne, r, hr⟩ := h v (List.mem_cons_self _ _)
    obtain ⟨evs, hevs, hlen⟩ := ih (fun w hw => h w (List.mem_cons_of_mem _ hw))
    refine ⟨Event.attempt uv :: Event.record r :: evs, ?_, ?_⟩
    · rw [dispatchLoop, huv, hevs]
      simp [hne, hr]
    · simp [recordsOf, hlen]

/-- C2 counterexample: the claim quantifies over every sequence processed by
the extraction dispatcher, and cites the dispatcher of `main` in `scraper.py`
as well; there the bad-request signal is caught by the generic handler, so no
cooldown occurs: the trace of the run contains the extraction attempt and no
`sleep` event at all. -/
theorem rate_limit_claim_counterexample :
    dispatchLoop (igStepBusiness (fun _ => IgResult.badRequest))
        [("http://i.co/joe").data] =
      some [Event.attempt ("joe").data] ∧
    ∀ e ∈ [Event.attempt ("joe").data], e ≠ Event.sleep 300 := by
  decide

/-- C2 amended: in the city dispatcher (`scrape_city`), when the Instagram
extractor signals the bad-request (rate-limit) condition for profile `u`,
the trace shows exactly one extraction attempt for `u` (never retried)
followed by exactly one 300-second sleep, then processing resumes with the
remaining profiles; no record is produced for `u`. -/
theorem scrape_city_rate_limit_cooldown (ig : Str → IgResult)
    (l1 l2 : List Str) (u un : Str) (e1 e2 : List Event)
    (h1 : dispatchLoop (igStepCity ig) l1 = some e1)
    (h2 : dispatchLoop (igStepCity ig) l2 = some e2)
    (hu : ensure_username_from_url u = some un) (hne : un ≠ [])
    (hbr : ig un = IgResult.badRequest) :
    dispatchLoop (igStepCity ig) (l1 ++ u :: l2) =
      some (e1 ++ [Event.attempt un, Event.sleep 300] ++ e2) ∧
    recordsOf (e1 ++ [Event.attempt un, Event.sleep 300] ++ e2) =
      recordsOf e1 ++ recordsOf e2 := by
  have hstep : igStepCity ig un = [Event.attempt un, Event.sleep 300] := by
    simp [igStepCity, hbr]
  constructor
  · rw [dispatchLoop_mid _ _ _ _ _ _ _ h1 h2 hu hne, hstep]
  · rw [recordsOf_append, recordsOf_append]
    simp [recordsOf]

/-- Witness for the amended C2 at a concrete three-profile run. -/
theorem scrape_city_rate_limit_cooldown_witness :
    dispatchLoop (igStepCity wIg)
        [("http://i.co/a").data, ("http://i.co/joe").data, ("http://i.co/b").data] =
      some ([Event.attempt ("a").data, Event.record wRec] ++
        [Event.attempt ("joe").data, Event.sleep 300] ++
        [Event.attempt ("b").data, Event.record wRec]) :=
  (scrape_city_rate_limit_cooldown wIg [("http://i.co/a").data] [("http://i.co/b").data]
    (("http://i.co/joe").data) (("joe").data) _ _
    (by decide) (by decide) (by decide) (by decide) (by decide)).1

/-- C3: if every profile URL in `l1` and `l2` has a non-empty identifier and
extracts successfully, and the extractor raises a generic (non-rate-limit)
failure exactly for `u` (which also has a non-empty identifier), then each
of the three dispatch loops (`scrape_city` Instagram, `main` Instagram, and
the shared Facebook loop) completes, produces exactly one record per URL of
`l1` and `l2` in processing order and none for `u`, and still processes all
of `l2`. -/
theorem dispatcher_failure_isolation (ig : Str → IgResult) (fb : Str → FbResult)
    (l1 l2 : List Str) (u un : Str)
    (hok : ∀ v ∈ l1 ++ l2, ∃ uv, ensure_username_from_url v = some uv ∧ uv ≠ [] ∧
      (∃ r, ig uv = IgResult.ok r) ∧ (∃ r, fb uv = FbResult.ok r))
    (hu : ensure_username_from_url u = some un) (hne : un ≠ [])
    (hig : ig un = IgResult.err) (hfb : fb un = FbResult.err) :
    ∀ step ∈ [igStepCity ig, igStepBusiness ig, fbStep fb],
      ∃ e1 e2, dispatchLoop step l1 = some e1 ∧ dispatchLoop step l2 = some e2 ∧
        dispatchLoop step (l1 ++ u :: l2) = some (e1 ++ [Event.attempt un] ++ e2) ∧
        recordsOf (e1 ++ [Event.attempt un] ++ e2) = recordsOf e1 ++ recordsOf e2 ∧
        (recordsOf e1).length = l1.length ∧ (recordsOf e2).length = l2.length := by
  have core : ∀ step : Str → List Event,
      (∀ v ∈ l1 ++ l2, ∃ uv, ensure_username_from_url v = some uv ∧ uv ≠ [] ∧
        ∃ r, step uv = [Event.attempt uv, Event.record r]) →
      step un = [Event.attempt un] →
      ∃ e1 e2, dispatchLoop step l1 = some e1 ∧ dispatchLoop step l2 = some e2 ∧
        dispatchLoop step (l1 ++ u :: l2) = some (e1 ++ [Event.attempt un] ++ e2) ∧
        recordsOf (e1 ++ [Event.attempt un] ++ e2) = recordsOf e1 ++ recordsOf e2 ∧
        (recordsOf e1).length = l1.length ∧ (recordsOf e2).length = l2.length := by
    intro step hoks hfail
    obtain ⟨e1, he1, hl1⟩ :=
      dispatchLoop_all_ok step l1 (fun v hv => hoks v (List.mem_append_left _ hv))
    obtain ⟨e2, he2, hl2⟩ :=
      dispatchLoop_all_ok step l2 (fun v hv => hoks v (List.mem_append_right _ hv))
    refine ⟨e1, e2, he1, he2, ?_, ?_, hl1, hl2⟩
    · have h := dispatchLoop_mid step l1 l2 u un e1 e2 he1 he2 hu hne
      rw [hfail] at h
      exact h
    · rw [recordsOf_append, recordsOf_append]
      simp [recordsOf]
  intro step hstep
  simp only [List.mem_cons, List.not_mem_nil, or_false] at hstep
  rcases hstep with rfl | rfl | rfl
  · refine core _ (fun v hv => ?_) (by simp [igStepCity, hig])
    obtain ⟨uv, h1, h2, ⟨r, hr⟩, _⟩ := hok v hv
    exact ⟨uv, h1, h2, r, by simp [igStepCity, hr]⟩
  · refine core _ (fun v hv => ?_) (by simp [igStepBusiness, hig])
    obtain ⟨uv, h1, h2, ⟨r, hr⟩, _⟩ := hok v hv
    exact ⟨uv, h1, h2, r, by simp [igStepBusiness, hr]⟩
  · refine core _ (fun v hv => ?_) (by simp [fbStep, hfb])
    obtain ⟨uv, h1, h2, _, ⟨r, hr⟩⟩ := hok v hv
    exact ⟨uv, h1, h2, r, by simp [fbStep, hr]⟩

/-- Witness for C3 at a concrete three-profile run for all three loops. -/
theorem dispatcher_failure_isolation_witness :
    (∃ e1 e2,
      dispatchLoop (igStepCity wIgErr) [("http://i.co/a").data] = some e1 ∧
      dispatchLoop (igStepCity wIgErr) [("http://i.co/b").data] = some e2 ∧
      dispatchLoop (igStepCity wIgErr) ([("http://i.co/a").data] ++
        ("http://i.co/joe").data :: [("http://i.co/b").data]) =
        some (e1 ++ [Event.attempt ("joe").data] ++ e2) ∧
      recordsOf (e1 ++ [Event.attempt ("joe").data] ++ e2) =
        recordsOf e1 ++ recordsOf e2 ∧
      (recordsOf e1).length = 1 ∧ (recordsOf e2).length = 1) ∧
    (∃ e1 e2,
      dispatchLoop (igStepBusiness wIgErr) [("http://i.co/a").data] = some e1 ∧
      dispatchLoop (igStepBusiness wIgErr) [("http://i.co/b").data] = some e2 ∧
      dispatchLoop (igStepBusiness wIgErr) ([("http://i.co/a").data] ++
        ("http://i.co/joe").data :: [("http://i.co/b").data]) =
        some (e1 ++ [Event.attempt ("joe").data] ++ e2) ∧
      recordsOf (e1 ++ [Event.attempt ("joe").data] ++ e2) =
        recordsOf e1 ++ recordsOf e2 ∧
      (recordsOf e1).length = 1 ∧ (recordsOf e2).length = 1) ∧
    (∃ e1 e2,
      dispatchLoop (fbStep wFb) [("http://i.co/a").data] = some e1 ∧
      dispatchLoop (fbStep wFb) [("http://i.co/b").data] = some e2 ∧
      dispatchLoop (fbStep wFb) ([("http://i.co/a").data] ++
        ("http://i.co/joe").data :: [("http://i.co/b").data]) =
        some (e1 ++ [Event.attempt ("joe").data] ++ e2) ∧
      recordsOf (e1 ++ [Event.attempt ("joe").data] ++ e2) =
        recordsOf e1 ++ recordsOf e2 ∧
      (recordsOf e1).length = 1 ∧ (recordsOf e2).length = 1) := by
  have h := dispatcher_failure_isolation wIgErr wFb
    [("http://i.co/a").data] [("http://i.co/b").data]
    (("http://i.co/joe").data) (("joe").data)
    (by
      intro v hv
      simp only [List.singleton_append, List.mem_cons, List.not_mem_nil, or_false] at hv
      rcases hv with rfl | rfl
      · exact ⟨("a").data, by decide, by decide, ⟨wRec, by decide⟩, ⟨wRec, by decide⟩⟩
      · exact ⟨("b").data, by decide, by decide, ⟨wRec, by decide⟩, ⟨wRec, by decide⟩⟩)
    (by decide) (by decide) (by decide) (by decide)
  refine ⟨?_, ?_, ?_⟩
  · simpa using h (igStepCity wIgErr) (by simp)
  · simpa using h (igStepBusiness wIgErr) (by simp)
  · simpa using h (fbStep wFb) (by simp)

/-! ### Lemmas about the export writer -/

theorem lexLe_cons_iff (a b : Char) (as bs : Str) :
    lexLe (a :: as) (b :: bs) = true ↔ a < b ∨ (a = b ∧ lexLe as bs = true) := by
  simp only [lexLe]
  by_cases h1 : a < b
  · simp [h1]
  · by_cases h2 : a = b <;> simp [h1, h2]

theorem lexLe_trans : ∀ a b c : Str, lexLe a b = true → lexLe b c = true →
    lexLe a c = true
  | [], _, _, _, _ => rfl
  | _ :: _, [], _, h, _ => by simp [lexLe] at h
  | _ :: _, _ :: _, [], _, h2 => by simp [lexLe] at h2
  | a :: as, b :: bs, c :: cs, h1, h2 => by
    rw [lexLe_cons_iff] at h1 h2 ⊢
    rcases h1 with h1 | ⟨rfl, h1⟩
    · rcases h2 with h2 | ⟨rfl, h2⟩
      · exact Or.inl (lt_trans h1 h2)
      · exact Or.inl h1
    · rcases h2 with h2 | ⟨rfl, h2⟩
      · exact Or.inl h2
      · exact Or.inr ⟨rfl, lexLe_trans as bs cs h1 h2⟩

theorem lexLe_total : ∀ a b : Str, lexLe a b = true ∨ lexLe b a = true
  | [], _ => Or.inl rfl
  | _ :: _, [] => Or.inr rfl
  | a :: as, b :: bs => by
    rw [lexLe_cons_iff, lexLe_cons_iff]
    rcases lt_trichotomy a b with h | rfl | h
    · exact Or.inl (Or.inl h)
    · rcases lexLe_total as bs with h | h
      · exact Or.inl (Or.inr ⟨rfl, h⟩)
      · exact Or.inr (Or.inr ⟨rfl, h⟩)
    · exact Or.inr (Or.inl h)

theorem lookup_eq_none_of_not_mem (l : List (Str × Str)) (f : Str)
    (h : f ∉ l.map Prod.fst) : l.lookup f = none := by
  induction l with
  | nil => rfl
  | cons kv t ih =>
    obtain ⟨k, v⟩ := kv
    have hk : ¬f = k := fun e => h (by simp [e])
    have hbeq : (f == k) = false := beq_eq_false_iff_ne.2 hk
    simp only [List.lookup, hbeq]
    exact ih (fun hm => h (List.mem_cons_of_mem _ hm))

theorem save_to_csv_cons (r0 : Rec) (rs : List Rec) :
    save_to_csv (r0 :: rs) =
      some (List.insertionSort lexLeRel
          (dedupAcc [] ((r0 :: rs).flatMap (fun r => r.map Prod.fst))),
        (r0 :: rs).map (fun r =>
          (List.insertionSort lexLeRel
            (dedupAcc [] ((r0 :: rs).flatMap (fun r => r.map Prod.fst)))).map
            (fun f => (r.lookup f).getD []))) := rfl

/-- C8: for every non-empty list of records, the export succeeds: the header
is sorted lexicographically, has no duplicates, and contains exactly the
union of all field names across records; each record becomes exactly one row
in record order (the row renders each header field through the record's
lookup), and a field absent from a record renders as the empty value. -/
theorem save_to_csv_export_spec (rows : List Rec) (hne : rows ≠ []) :
    ∃ header body, save_to_csv rows = some (header, body) ∧
      List.Sorted lexLeRel header ∧
      header.Nodup ∧
      (∀ f, f ∈ header ↔ ∃ r ∈ rows, f ∈ r.map Prod.fst) ∧
      body = rows.map (fun r => header.map (fun f => (r.lookup f).getD [])) ∧
      body.length = rows.length ∧
      (∀ r ∈ rows, ∀ f, f ∉ r.map Prod.fst → (r.lookup f).getD [] = []) := by
  match rows, hne with
  | r0 :: rs, _ =>
    refine ⟨_, _, save_to_csv_cons r0 rs, ?_, ?_, ?_, rfl, by simp, ?_⟩
    · exact @List.sorted_insertionSort Str lexLeRel inferInstance
        ⟨fun a b => lexLe_total a b⟩ ⟨fun a b c => lexLe_trans a b c⟩ _
    · exact (List.perm_insertionSort lexLeRel _).nodup_iff.2
        (dedupAcc_nil_eq_firstOcc _ ▸ firstOcc_nodup _)
    · intro f
      rw [(List.perm_insertionSort lexLeRel _).mem_iff, dedupAcc_nil_eq_firstOcc,
        mem_firstOcc, List.mem_flatMap]
    · intro r _ f hf
      rw [lookup_eq_none_of_not_mem r f hf]
      rfl

/-- Witness for C8 at the spec's example: field sets \x7ba,b\x7d and \x7ba,c\x7d. -/
theorem save_to_csv_export_spec_witness :
    ∃ header body, save_to_csv wRows = some (header, body) ∧
      List.Sorted lexLeRel header ∧
      header.Nodup ∧
      (∀ f, f ∈ header ↔ ∃ r ∈ wRows, f ∈ r.map Prod.fst) ∧
      body = wRows.map (fun r => header.map (fun f => (r.lookup f).getD [])) ∧
      body.length = wRows.length ∧
      (∀ r ∈ wRows, ∀ f, f ∉ r.map Prod.fst → (r.lookup f).getD [] = []) :=
  save_to_csv_export_spec wRows (by decide)

/-- C9: an empty record list is exported as a no-op (`none`, no file write);
and a whole city run whose search oracle discovers nothing (for all queries)
completes without error, performs no extraction and writes no file. -/
theorem empty_run_no_write :
    save_to_csv [] = none ∧
    ∀ (ddgs : Str → Nat → List RawHit) (ig : Str → IgResult) (fb : Str → FbResult)
      (city : Str) (kws : List Str) (m : Nat),
      (∀ q n, ddgs q n = []) →
      scrape_city ddgs ig fb city kws m = some ([], none) := by
  refine ⟨rfl, ?_⟩
  intro ddgs ig fb city kws m h
  have hsearch : ∀ name platform, search_social_links ddgs name platform m = some [] := by
    intro name platform
    rw [search_social_links, h]
    rfl
  have hraw : ∀ platform, discoverRaw ddgs city platform m kws = some [] := by
    intro platform
    induction kws with
    | nil => rfl
    | cons kw t ih =>
      rw [discoverRaw, hsearch, ih]
      rfl
  have hdisc : ∀ platform, discover_profiles ddgs city kws platform m = some [] := by
    intro platform
    rw [discover_profiles, hraw]
    rfl
  rw [scrape_city, hdisc, hdisc]
  rfl

/-- Witness for C9: a concrete empty-discovery run. -/
theorem empty_run_no_write_witness :
    scrape_city (fun _ _ => []) (fun _ => IgResult.err) (fun _ => FbResult.err)
      ("c").data [['k']] 3 = some ([], none) :=
  empty_run_no_write.2 (fun _ _ => []) (fun _ => IgResult.err) (fun _ => FbResult.err)
    (("c").data) [['k']] 3 (fun _ _ => rfl)

/-! ### Lemmas about the discovery filter -/

theorem collectUrls_append (platform : Str) (a b : List RawHit) :
    collectUrls platform (a ++ b) =
      match collectUrls platform a with
      | none => none
      | some u1 => (collectUrls platform b).map (fun u2 => u1 ++ u2) := by
  induction a with
  | nil =>
    cases hb : collectUrls platform b <;> simp [collectUrls, hb]
  | cons r rs ih =>
    rw [List.cons_append, collectUrls, collectUrls, ih]
    by_cases hin : strIn platform (hitUrl r)
    · rw [if_pos hin, if_pos hin]
      cases hc : cleanUrl (hitUrl r) with
      | none => rfl
      | some c =>
        cases ha : collectUrls platform rs with
        | none => rfl
        | some u1 =>
          cases hb : collectUrls platform b <;> simp
    · rw [if_neg hin, if_neg hin]

theorem collectUrls_mem (platform : Str) (hits : List RawHit) (urls : List Str)
    (r : RawHit) (hc : collectUrls platform hits = some urls) (hm : r ∈ hits)
    (hin : strIn platform (hitUrl r) = true) :
    ∃ v, cleanUrl (hitUrl r) = some v ∧ v ∈ urls := by
  induction hits generalizing urls with
  | nil => simp at hm
  | cons a t ih =>
    rw [collectUrls] at hc
    rcases List.mem_cons.1 hm with rfl | hm'
    · rw [if_pos hin] at hc
      cases hcl : cleanUrl (hitUrl r) with
      | none => rw [hcl] at hc; exact absurd hc (by simp)
      | some c =>
        rw [hcl] at hc
        obtain ⟨us, _, rfl⟩ := Option.map_eq_some'.1 hc
        exact ⟨c, rfl, List.mem_cons_self _ _⟩
    · by_cases ha : strIn platform (hitUrl a)
      · rw [if_pos ha] at hc
        cases hcl : cleanUrl (hitUrl a) with
        | none => rw [hcl] at hc; exact absurd hc (by simp)
        | some c =>
          rw [hcl] at hc
          obtain ⟨us, hus, rfl⟩ := Option.map_eq_some'.1 hc
          obtain ⟨v, hv, hvm⟩ := ih us hus hm'
          exact ⟨v, hv, List.mem_cons_of_mem _ hvm⟩
      · rw [if_neg ha] at hc
        exact ih urls hc hm'

theorem mem_dedupAcc_nil (v : Str) (l : List Str) : v ∈ dedupAcc [] l ↔ v ∈ l := by
  rw [dedupAcc_nil_eq_firstOcc]
  exact mem_firstOcc v l

/-- C7: the platform filter of discovery is a pure substring test on the raw
hit URL: deleting a hit whose raw URL does not contain the platform substring
leaves the output unchanged wherever the hit sits, and every hit whose raw
URL does contain the substring contributes its cleaned URL to the output. -/
theorem platform_filter_pure (platform : Str) :
    (∀ h1 h2 r, strIn platform (hitUrl r) = false →
      searchHits platform (h1 ++ r :: h2) = searchHits platform (h1 ++ h2)) ∧
    (∀ hits r urls, r ∈ hits → strIn platform (hitUrl r) = true →
      searchHits platform hits = some urls →
      ∃ v, cleanUrl (hitUrl r) = some v ∧ v ∈ urls) := by
  constructor
  · intro h1 h2 r hr
    have hskip : collectUrls platform (r :: h2) = collectUrls platform h2 := by
      rw [collectUrls, if_neg (by simp [hr])]
    rw [searchHits, searchHits, collectUrls_append, collectUrls_append, hskip]
  · intro hits r urls hm hin hs
    rw [searchHits] at hs
    cases hc : collectUrls platform hits with
    | none => rw [hc] at hs; exact absurd hs (by simp)
    | some raw =>
      rw [hc] at hs
      obtain ⟨raw', hraw, rfl⟩ := Option.map_eq_some'.1 hs
      obtain rfl : raw = raw' := by injection hraw
      obtain ⟨v, hv, hvm⟩ := collectUrls_mem platform hits raw r hc hm hin
      exact ⟨v, hv, (mem_dedupAcc_nil v raw).2 hvm⟩

/-- Witness for C7: a non-matching hit is dropped wherever it sits, and a
matching hit's cleaned URL is in the output. -/
theorem platform_filter_pure_witness :
    searchHits ("i.co").data ([hitOf "http://i.co/x"] ++ hitOf "http://other.com/y" :: []) =
      searchHits ("i.co").data ([hitOf "http://i.co/x"] ++ []) ∧
    ∃ v, cleanUrl (hitUrl (hitOf "http://i.co/x")) = some v ∧
      v ∈ [("http://i.co/x").data] :=
  ⟨(platform_filter_pure (("i.co").data)).1 [hitOf "http://i.co/x"] [] _ (by decide),
   (platform_filter_pure (("i.co").data)).2 [hitOf "http://i.co/x"] (hitOf "http://i.co/x")
     [("http://i.co/x").data] (by decide) (by decide) (by decide)⟩

/-! ### Lemmas about the URL parser: string splitting -/

theorem splitFirst_not_mem (c : Char) (l : Str) (h : c ∉ l) :
    splitFirst c l = (l, none) := by
  induction l with
  | nil => rfl
  | cons a t ih =>
    have ha : ¬a = c := fun e => h (e ▸ List.mem_cons_self a t)
    rw [splitFirst, if_neg ha, ih (fun hm => h (List.mem_cons_of_mem _ hm))]

theorem splitFirst_fst_not_mem (c : Char) (l : Str) : c ∉ (splitFirst c l).1 := by
  induction l with
  | nil => simp [splitFirst]
  | cons a t ih =>
    by_cases ha : a = c
    · rw [splitFirst, if_pos ha]
      simp
    · rw [splitFirst, if_neg ha]
      show c ∉ a :: (splitFirst c t).1
      intro hm
      rcases List.mem_cons.1 hm with e | hm'
      · exact ha (Eq.symm e)
      · exact ih hm'

theorem splitFirst_eq (c : Char) (l : Str) (r : Str)
    (h : (splitFirst c l).2 = some r) : l = (splitFirst c l).1 ++ c :: r := by
  induction l generalizing r with
  | nil => simp [splitFirst] at h
  | cons a t ih =>
    by_cases ha : a = c
    · rw [splitFirst, if_pos ha] at h ⊢
      simp at h
      simp [ha, h]
    · rw [splitFirst, if_neg ha] at h ⊢
      rw [List.cons_append, ← ih r h]

theorem mem_splitFirst_fst (c x : Char) (l : Str) (h : x ∈ (splitFirst c l).1) :
    x ∈ l := by
  induction l with
  | nil => simp [splitFirst] at h
  | cons a t ih =>
    rw [splitFirst] at h
    by_cases ha : a = c
    · simp [ha] at h
    · simp only [if_neg ha] at h
      rcases List.mem_cons.1 h with rfl | h'
      · exact List.mem_cons_self _ _
      · exact List.mem_cons_of_mem _ (ih h')

theorem splitFirst_append_not_mem (c : Char) (l m : Str) (h : c ∉ l) :
    splitFirst c (l ++ m) = (l ++ (splitFirst c m).1, (splitFirst c m).2) := by
  induction l with
  | nil => simp
  | cons a t ih =>
    have ha : ¬a = c := fun e => h (e ▸ List.mem_cons_self a t)
    rw [List.cons_append, splitFirst, if_neg ha,
      ih (fun hm => h (List.mem_cons_of_mem _ hm))]
    rfl

theorem splitFirst_append_mem (c : Char) (l m r : Str)
    (h : (splitFirst c l).2 = some r) :
    splitFirst c (l ++ m) = ((splitFirst c l).1, some (r ++ m)) := by
  induction l generalizing r with
  | nil => simp [splitFirst] at h
  | cons a t ih =>
    by_cases ha : a = c
    · rw [splitFirst, if_pos ha] at h
      simp at h
      rw [List.cons_append, splitFirst, if_pos ha, h]
      simp [splitFirst, if_pos ha]
    · rw [splitFirst, if_neg ha] at h
      rw [List.cons_append, splitFirst, if_neg ha, ih r h, splitFirst, if_neg ha]

theorem takeWhile_append_stop (p : Char → Bool) (t m : Str) (d : Char)
    (hd : p d = false) : (t ++ d :: m).takeWhile p = t.takeWhile p := by
  induction t with
  | nil => simp [List.takeWhile, hd]
  | cons a s ih =>
    rw [List.cons_append, List.takeWhile_cons, List.takeWhile_cons]
    cases hp : p a <;> simp [ih]

theorem dropWhile_append_stop (p : Char → Bool) (t m : Str) (d : Char)
    (hd : p d = false) : (t ++ d :: m).dropWhile p = t.dropWhile p ++ d :: m := by
  induction t with
  | nil => simp [List.dropWhile, hd]
  | cons a s ih =>
    rw [List.cons_append, List.dropWhile_cons, List.dropWhile_cons]
    cases hp : p a <;> simp [ih]

theorem rstripSlash_append_slash (l : Str) :
    rstripSlash (l ++ ['/']) = rstripSlash l := by
  rw [rstripSlash, rstripSlash, List.reverse_append]
  rfl

theorem head?_dropWhile_neg (p : Char → Bool) (l : Str) (a : Char)
    (h : (l.dropWhile p).head? = some a) : p a = false := by
  induction l with
  | nil => simp [List.dropWhile] at h
  | cons b t ih =>
    rw [List.dropWhile_cons] at h
    by_cases hp : p b
    · simp only [if_pos hp] at h
      exact ih h
    · simp only [if_neg hp] at h
      simp at h
      rw [← h]
      simp [hp]

theorem rstripSlash_no_trailing (l : Str) :
    (rstripSlash l).getLast? ≠ some '/' := by
  rw [rstripSlash, List.getLast?_reverse]
  intro h
  have := head?_dropWhile_neg (fun c => c = '/') l.reverse '/' h
  simp at this

theorem mem_rstripSlash (x : Char) (l : Str) (h : x ∈ rstripSlash l) : x ∈ l := by
  rw [rstripSlash, List.mem_reverse] at h
  have := (List.dropWhile_sublist (l := l.reverse) (fun c => c = '/')).mem h
  exact List.mem_reverse.1 this

theorem splitFirst_none (c : Char) (l : Str) (h : (splitFirst c l).2 = none) :
    c ∉ l := by
  induction l with
  | nil => simp
  | cons a t ih =>
    by_cases ha : a = c
    · rw [splitFirst, if_pos ha] at h
      simp at h
    · rw [splitFirst, if_neg ha] at h
      intro hm
      rcases List.mem_cons.1 hm with e | hm'
      · exact ha (Eq.symm e)
      · exact ih h hm'

theorem splitLast_spec (c : Char) (l : Str) (h : c ∈ l) :
    l = (splitLast c l).1 ++ c :: (splitLast c l).2 ∧ c ∉ (splitLast c l).2 := by
  rcases hsp : splitFirst c l.reverse with ⟨rseg, o⟩
  cases o with
  | none =>
    exact absurd (List.mem_reverse.2 h) (splitFirst_none c l.reverse (by rw [hsp]))
  | some rinit =>
    have heq := splitFirst_eq c l.reverse rinit (by rw [hsp])
    rw [hsp] at heq
    have hnm : c ∉ rseg := by
      have := splitFirst_fst_not_mem c l.reverse
      rw [hsp] at this
      exact this
    rw [splitLast, hsp]
    constructor
    · have : l.reverse.reverse = (rseg ++ c :: rinit).reverse := by rw [← heq]
      rw [List.reverse_reverse] at this
      rw [this]
      simp
    · simpa using hnm

theorem mem_splitScheme_fst (u : Str) (x : Char) (h : x ∈ (splitScheme u).1) :
    ∃ c, schemeChar c = true ∧ x = Char.toLower c := by
  rcases hsp : splitFirst ':' u with ⟨pre, o⟩
  cases o with
  | none =>
    rw [splitScheme, hsp] at h
    simp at h
  | some rest =>
    cases pre with
    | nil =>
      rw [splitScheme, hsp] at h
      simp at h
    | cons c0 pre' =>
      simp only [splitScheme, hsp] at h
      by_cases hc : c0.isAlpha && (c0 :: pre').all schemeChar
      · rw [if_pos hc] at h
        obtain ⟨c, hcm, hcx⟩ := List.mem_map.1 h
        refine ⟨c, ?_, hcx.symm⟩
        rw [Bool.and_eq_true] at hc
        exact List.all_eq_true.1 hc.2 c hcm
      · rw [if_neg hc] at h
        simp at h

theorem mem_splitScheme_snd (u : Str) (x : Char) (h : x ∈ (splitScheme u).2) :
    x ∈ u := by
  rcases hsp : splitFirst ':' u with ⟨pre, o⟩
  cases o with
  | none =>
    rw [splitScheme, hsp] at h
    exact h
  | some rest =>
    cases pre with
    | nil =>
      rw [splitScheme, hsp] at h
      exact h
    | cons c0 pre' =>
      simp only [splitScheme, hsp] at h
      by_cases hc : c0.isAlpha && (c0 :: pre').all schemeChar
      · rw [if_pos hc] at h
        have heq := splitFirst_eq ':' u rest (by rw [hsp])
        rw [hsp] at heq
        rw [heq]
        exact List.mem_append_right _ (List.mem_cons_of_mem _ h)
      · rw [if_neg hc] at h
        exact h

theorem mem_netlocStage_fst (r : Str) (x : Char) (h : x ∈ (netlocStage r).1) :
    netlocStop x = false ∧ x ∈ r := by
  match r with
  | [] => simp [netlocStage] at h
  | [a] => simp [netlocStage] at h
  | a :: b :: rest =>
    rw [netlocStage] at h
    by_cases hab : a = '/' ∧ b = '/'
    · rw [if_pos hab] at h
      have h1 := List.mem_takeWhile_imp h
      have h2 := (List.takeWhile_sublist (l := rest) (fun c => !netlocStop c)).mem h
      exact ⟨by simpa using h1, List.mem_cons_of_mem _ (List.mem_cons_of_mem _ h2)⟩
    · rw [if_neg hab] at h
      simp at h

theorem mem_netlocStage_snd (r : Str) (x : Char) (h : x ∈ (netlocStage r).2) :
    x ∈ r := by
  match r with
  | [] => exact h
  | [a] => exact h
  | a :: b :: rest =>
    rw [netlocStage] at h
    by_cases hab : a = '/' ∧ b = '/'
    · rw [if_pos hab] at h
      have := (List.dropWhile_sublist (l := rest) (fun c => !netlocStop c)).mem h
      exact List.mem_cons_of_mem _ (List.mem_cons_of_mem _ this)
    · rw [if_neg hab] at h
      exact h

theorem mem_splitParamsPath (p : Str) (x : Char) (h : x ∈ splitParamsPath p) :
    x ∈ p := by
  rw [splitParamsPath] at h
  by_cases hs : '/' ∈ p
  · rw [if_pos hs] at h
    rcases hsp : splitFirst ';' (splitLast '/' p).2 with ⟨pre, o⟩
    simp only [hsp] at h
    cases o with
    | none => exact h
    | some rest =>
      obtain ⟨heq, -⟩ := splitLast_spec '/' p hs
      rcases List.mem_append.1 h with h' | h'
      · rw [heq]
        exact List.mem_append_left _ h'
      · rcases List.mem_cons.1 h' with rfl | h''
        · exact hs
        · rw [heq]
          refine List.mem_append_right _ (List.mem_cons_of_mem _ ?_)
          have := mem_splitFirst_fst ';' x (splitLast '/' p).2
          rw [hsp] at this
          exact this h''
  · rw [if_neg hs] at h
    exact mem_splitFirst_fst ';' x p h

/-! ### Character class lemmas for the scheme -/

theorem schemeChar_range (c : Char) (h : schemeChar c = true) :
    (65 ≤ c.toNat ∧ c.toNat ≤ 90) ∨ (97 ≤ c.toNat ∧ c.toNat ≤ 122) ∨
    (48 ≤ c.toNat ∧ c.toNat ≤ 57) ∨ c.toNat = 43 ∨ c.toNat = 45 ∨ c.toNat = 46 := by
  simp only [schemeChar, Char.isAlpha, Char.isUpper, Char.isLower, Char.isDigit,
    Bool.or_eq_true, Bool.and_eq_true, decide_eq_true_eq] at h
  rcases h with ((((⟨h1, h2⟩ | ⟨h1, h2⟩) | ⟨h1, h2⟩) | h) | h) | h
  · exact Or.inl ⟨h1, h2⟩
  · exact Or.inr (Or.inl ⟨h1, h2⟩)
  · exact Or.inr (Or.inr (Or.inl ⟨h1, h2⟩))
  · subst h; exact Or.inr (Or.inr (Or.inr (Or.inl rfl)))
  · subst h; exact Or.inr (Or.inr (Or.inr (Or.inr (Or.inl rfl))))
  · subst h; exact Or.inr (Or.inr (Or.inr (Or.inr (Or.inr rfl))))

theorem toNat_toLower (c : Char) :
    (Char.toLower c).toNat =
      if c.toNat ≥ 65 ∧ c.toNat ≤ 90 then c.toNat + 32 else c.toNat := by
  rw [Char.toLower]
  by_cases h : c.toNat ≥ 65 ∧ c.toNat ≤ 90
  · rw [if_pos h, if_pos h]
    have hv : (c.toNat + 32).isValidChar := Or.inl (by omega)
    rw [Char.ofNat, dif_pos hv]
    rfl
  · rw [if_neg h, if_neg h]

theorem toLower_schemeChar_ne (c : Char) (h : schemeChar c = true) :
    Char.toLower c ≠ '?' ∧ Char.toLower c ≠ '#' := by
  have hr := schemeChar_range c h
  have ht := toNat_toLower c
  have hq : ('?' : Char).toNat = 63 := rfl
  have hh : ('#' : Char).toNat = 35 := rfl
  constructor
  · intro he
    rw [he, hq] at ht
    by_cases hm : c.toNat ≥ 65 ∧ c.toNat ≤ 90 <;>
      [rw [if_pos hm] at ht; rw [if_neg hm] at ht] <;> omega
  · intro he
    rw [he, hh] at ht
    by_cases hm : c.toNat ≥ 65 ∧ c.toNat ≤ 90 <;>
      [rw [if_pos hm] at ht; rw [if_neg hm] at ht] <;> omega

/-! ### Appending a delimiter-led suffix commutes with the parse stages -/

theorem splitFirst_mem_some (c : Char) (l : Str) (h : c ∈ l) :
    ∃ r, (splitFirst c l).2 = some r := by
  cases ho : (splitFirst c l).2 with
  | none => exact absurd h (splitFirst_none c l ho)
  | some r => exact ⟨r, rfl⟩

theorem all_schemeChar_false_of_mem (pre : Str) (d : Char)
    (hd : schemeChar d = false) (hm : d ∈ pre) : pre.all schemeChar = false := by
  cases ha : pre.all schemeChar with
  | false => rfl
  | true => exact absurd (List.all_eq_true.1 ha d hm) (by simp [hd])

theorem splitScheme_append_stop (u : Str) (d : Char) (m : Str)
    (hd : schemeChar d = false) (hd2 : d ≠ ':') :
    splitScheme (u ++ d :: m) = ((splitScheme u).1, (splitScheme u).2 ++ d :: m) := by
  by_cases hc : ':' ∈ u
  · obtain ⟨rest, hrest⟩ := splitFirst_mem_some ':' u hc
    rcases hsp : splitFirst ':' u with ⟨pre, o⟩
    rw [hsp] at hrest
    subst hrest
    have happ := splitFirst_append_mem ':' u (d :: m) rest (by rw [hsp])
    rw [hsp] at happ
    cases pre with
    | nil => simp [splitScheme, happ, hsp]
    | cons c0 pre' =>
      by_cases hv : c0.isAlpha && (c0 :: pre').all schemeChar
      · simp only [splitScheme, happ, hsp, if_pos hv]
      · simp only [splitScheme, happ, hsp, if_neg hv]
  · have happ := splitFirst_append_not_mem ':' u (d :: m) hc
    have hu : splitScheme u = ([], u) := by
      rcases hsp : splitFirst ':' u with ⟨pre, o⟩
      cases o with
      | none => simp [splitScheme, hsp]
      | some rest =>
        exact absurd (by rw [splitFirst_eq ':' u rest (by rw [hsp]), hsp]; simp)
          hc
    by_cases hcm : ':' ∈ m
    · obtain ⟨rm, hrm⟩ := splitFirst_mem_some ':' (d :: m)
        (List.mem_cons_of_mem _ hcm)
      rcases hsm : splitFirst ':' (d :: m) with ⟨pm, om⟩
      rw [hsm] at hrm
      subst hrm
      have hdm : d ∈ pm := by
        have heq := splitFirst_eq ':' (d :: m) rm (by rw [hsm])
        rw [hsm] at heq
        cases pm with
        | nil =>
          simp at heq
          exact absurd heq.1 hd2
        | cons x xs =>
          simp at heq
          exact heq.1 ▸ List.mem_cons_self _ _
      have hall : (u ++ pm).all schemeChar = false :=
        all_schemeChar_false_of_mem _ d hd (List.mem_append_right _ hdm)
      cases hup : u ++ pm with
      | nil =>
        have hdm2 : d ∈ u ++ pm := List.mem_append_right _ hdm
        rw [hup] at hdm2
        simp at hdm2
      | cons y ys =>
        have hall2 : (y :: ys).all schemeChar = false := hup ▸ hall
        rw [hu]
        simp only [splitScheme, happ, hsm, hup]
        rw [if_neg (by simp [hall2])]
    · have hnm : ':' ∉ d :: m := by
        intro hx
        rcases List.mem_cons.1 hx with e | e
        · exact hd2 (Eq.symm e)
        · exact hcm e
      have hall : ':' ∉ u ++ d :: m := by
        intro hx
        rcases List.mem_append.1 hx with e | e
        · exact hc e
        · exact hnm e
      rw [hu]
      simp [splitScheme, splitFirst_not_mem ':' (u ++ d :: m) hall]

theorem netlocStage_append (r : Str) (d : Char) (m : Str) (hd : netlocStop d = true)
    (hm : ∀ t, d :: m ≠ '/' :: '/' :: t) (hr : r = ['/'] → d ≠ '/') :
    netlocStage (r ++ d :: m) = ((netlocStage r).1, (netlocStage r).2 ++ d :: m) := by
  match r with
  | [] =>
    cases m with
    | nil => rfl
    | cons b t =>
      rw [List.nil_append, netlocStage]
      rw [if_neg (fun ⟨e1, e2⟩ => hm t (by rw [e1, e2]))]
      rfl
  | [a] =>
    rw [List.singleton_append, netlocStage]
    rw [if_neg (fun ⟨e1, e2⟩ => (hr (by rw [e1])) e2)]
    rfl
  | a :: b :: t =>
    rw [show (a :: b :: t) ++ d :: m = a :: b :: (t ++ d :: m) by simp, netlocStage,
      netlocStage]
    by_cases hab : a = '/' ∧ b = '/'
    · rw [if_pos hab, if_pos hab, splitNetloc, splitNetloc,
        takeWhile_append_stop _ _ _ _ (by simp [hd]),
        dropWhile_append_stop _ _ _ _ (by simp [hd])]
    · rw [if_neg hab, if_neg hab]
      rfl

/-! ### The parse stage decomposition of urlsplit -/

theorem urlsplit_eq (u : Str) :
    urlsplit u = if bracketBad u then none else
      some ⟨rawScheme u, rawNetloc u, rawPath u,
        (match (splitFirst '?' (splitFirst '#' (netlocStage (splitScheme u).2).2).1).2 with
          | some x => x | none => []),
        (match (splitFirst '#' (netlocStage (splitScheme u).2).2).2 with
          | some x => x | none => [])⟩ := rfl

theorem mem_netRest (u : Str) (x : Char)
    (h : x ∈ (netlocStage (splitScheme u).2).2) : x ∈ u :=
  mem_splitScheme_snd _ _ (mem_netlocStage_snd _ _ h)

theorem mem_rawPath (u : Str) (x : Char) (h : x ∈ rawPath u) : x ∈ u :=
  mem_netRest u x (mem_splitFirst_fst '#' x _ (mem_splitFirst_fst '?' x _ h))

theorem rawPath_no_special (u : Str) : '?' ∉ rawPath u ∧ '#' ∉ rawPath u := by
  constructor
  · exact splitFirst_fst_not_mem '?' _
  · intro h
    exact splitFirst_fst_not_mem '#' _ (mem_splitFirst_fst '?' '#' _ h)

theorem cleanUrl_of_raw (u : Str) (hsemi : ';' ∉ rawPath u) :
    cleanUrl u = if bracketBad u then none
      else some (rstripSlash (rawScheme u ++ colonSlashSlash ++ rawNetloc u ++ rawPath u)) := by
  rw [cleanUrl, urlparse, urlsplit_eq]
  by_cases hb : bracketBad u
  · rw [if_pos hb, if_pos hb]
    rfl
  · rw [if_neg hb, if_neg hb]
    simp only [Option.map_some']
    rw [if_neg (fun h => hsemi h.2)]

theorem stages_append (u : Str) (d : Char) (m : Str)
    (hd1 : schemeChar d = false) (hd2 : d ≠ ':') (hd3 : netlocStop d = true)
    (hd4 : d ≠ '#')
    (hm : ∀ t, d :: m ≠ '/' :: '/' :: t) (hr : (splitScheme u).2 = ['/'] → d ≠ '/')
    (hqu : '?' ∉ u) (hfu : '#' ∉ u) (hfm : '#' ∉ m) :
    rawScheme (u ++ d :: m) = rawScheme u ∧
    rawNetloc (u ++ d :: m) = rawNetloc u ∧
    (splitFirst '#' (netlocStage (splitScheme (u ++ d :: m)).2).2).1 =
      (netlocStage (splitScheme u).2).2 ++ d :: m ∧
    rawPath u = (netlocStage (splitScheme u).2).2 := by
  have hsch := splitScheme_append_stop u d m hd1 hd2
  have hnet := netlocStage_append ((splitScheme u).2) d m hd3 hm hr
  have hrest : '#' ∉ (netlocStage (splitScheme u).2).2 :=
    fun h => hfu (mem_netRest u '#' h)
  have hrest2 : '#' ∉ (netlocStage (splitScheme u).2).2 ++ d :: m := by
    intro h
    rcases List.mem_append.1 h with h | h
    · exact hrest h
    · rcases List.mem_cons.1 h with e | h
      · exact hd4 (Eq.symm e)
      · exact hfm h
  have hqrest : '?' ∉ (netlocStage (splitScheme u).2).2 :=
    fun h => hqu (mem_netRest u '?' h)
  refine ⟨?_, ?_, ?_, ?_⟩
  · rw [rawScheme, rawScheme, hsch]
  · rw [rawNetloc, rawNetloc, hsch]
    show (netlocStage ((splitScheme u).2 ++ d :: m)).1 = _
    rw [hnet]
  · rw [hsch]
    show (splitFirst '#' (netlocStage ((splitScheme u).2 ++ d :: m)).2).1 = _
    rw [hnet]
    show (splitFirst '#' ((netlocStage (splitScheme u).2).2 ++ d :: m)).1 = _
    rw [splitFirst_not_mem '#' _ hrest2]
  · rw [rawPath, splitFirst_not_mem '#' _ hrest]
    show (splitFirst '?' ((netlocStage (splitScheme u).2).2)).1 = _
    rw [splitFirst_not_mem '?' _ hqrest]

/-- C4 counterexample: the claim as stated fails on the code in two ways.
URLs that differ only by scheme keep their distinct schemes (normalization
preserves the scheme), and URLs that differ only by a trailing slash can
normalize differently when the last path segment contains a semicolon,
because `urlparse` strips `params` from the path only when a `';'` follows
the last `'/'`. -/
theorem normalize_collapse_counterexample :
    cleanUrl ("http://instagram.com/a").data ≠ cleanUrl ("https://instagram.com/a").data ∧
    cleanUrl ("http://a.com/x;p/").data ≠ cleanUrl ("http://a.com/x;p").data := by
  decide

/-- C4 amended: two raw hit URLs that differ only by a trailing slash, or
only by a query string, normalize to the same Profile URL, provided the
original URL has no query, fragment or semicolon characters (and the added
query has no fragment); scheme differences are preserved, not collapsed. -/
theorem normalize_collapses (u q : Str)
    (hqu : '?' ∉ u) (hfu : '#' ∉ u) (hsu : ';' ∉ u) (hfq : '#' ∉ q) :
    cleanUrl (u ++ ['/']) = cleanUrl u ∧ cleanUrl (u ++ '?' :: q) = cleanUrl u := by
  have hsemiu : ';' ∉ rawPath u := fun h => hsu (mem_rawPath u ';' h)
  constructor
  · by_cases hs2 : (splitScheme u).2 = ['/']
    · -- the appended slash turns the remainder "/" into "//", creating an
      -- empty authority; both sides still clean to the same string
      have hsch := splitScheme_append_stop u '/' [] (by decide) (by decide)
      have hS : rawScheme (u ++ ['/']) = rawScheme u := by
        rw [rawScheme, rawScheme, hsch]
      have hNu : rawNetloc u = [] := by
        rw [rawNetloc, hs2]
        rfl
      have hPu : rawPath u = ['/'] := by
        rw [rawPath, hs2]
        rfl
      have hN : rawNetloc (u ++ ['/']) = [] := by
        rw [rawNetloc, hsch]
        show (netlocStage ((splitScheme u).2 ++ ['/'])).1 = []
        rw [hs2]
        rfl
      have hP : rawPath (u ++ ['/']) = [] := by
        rw [rawPath, hsch]
        show (splitFirst '?'
          (splitFirst '#' (netlocStage ((splitScheme u).2 ++ ['/'])).2).1).1 = []
        rw [hs2]
        rfl
      have hb1 : ¬ bracketBad u := by
        simp [bracketBad, hNu]
      have hb2 : ¬ bracketBad (u ++ ['/']) := by
        simp [bracketBad, hN]
      rw [cleanUrl_of_raw _ (by rw [hP]; simp), cleanUrl_of_raw u hsemiu,
        if_neg hb2, if_neg hb1, hS, hN, hNu, hPu, hP]
      congr 1
      rw [List.append_nil, List.append_nil,
        show rawScheme u ++ colonSlashSlash ++ ['/'] =
          (rawScheme u ++ colonSlashSlash) ++ ['/'] from by simp,
        rstripSlash_append_slash]
    · obtain ⟨hS, hN, h3, h4⟩ := stages_append u '/' [] (by decide) (by decide)
        (by decide) (by decide) (fun t => by simp) (fun e => absurd e hs2)
        hqu hfu (by simp)
      have hqrest2 : '?' ∉ (netlocStage (splitScheme u).2).2 ++ ['/'] := by
        intro h
        rcases List.mem_append.1 h with h | h
        · exact hqu (mem_netRest u '?' h)
        · simp at h
      have hP : rawPath (u ++ ['/']) = rawPath u ++ ['/'] := by
        rw [rawPath, h3, splitFirst_not_mem '?' _ hqrest2, h4]
      have hbb : bracketBad (u ++ ['/']) ↔ bracketBad u := by
        rw [bracketBad, bracketBad, hN]
      have hsemi2 : ';' ∉ rawPath (u ++ ['/']) := by
        rw [hP]
        intro h
        rcases List.mem_append.1 h with h | h
        · exact hsemiu h
        · simp at h
      rw [cleanUrl_of_raw _ hsemi2, cleanUrl_of_raw u hsemiu]
      by_cases hb : bracketBad u
      · rw [if_pos hb, if_pos (hbb.2 hb)]
      · rw [if_neg hb, if_neg (fun h => hb (hbb.1 h)), hS, hN, hP]
        congr 1
        rw [show rawScheme u ++ colonSlashSlash ++ rawNetloc u ++ (rawPath u ++ ['/']) =
          (rawScheme u ++ colonSlashSlash ++ rawNetloc u ++ rawPath u) ++ ['/'] from by
          simp, rstripSlash_append_slash]
  · obtain ⟨hS, hN, h3, h4⟩ := stages_append u '?' q (by decide) (by decide)
      (by decide) (by decide) (fun t h => by simp at h) (fun _ => by decide)
      hqu hfu hfq
    have hqrest : '?' ∉ (netlocStage (splitScheme u).2).2 :=
      fun h => hqu (mem_netRest u '?' h)
    have hP : rawPath (u ++ '?' :: q) = rawPath u := by
      rw [rawPath, h3, splitFirst_append_not_mem '?' _ _ hqrest]
      show (netlocStage (splitScheme u).2).2 ++ (splitFirst '?' ('?' :: q)).1 = _
      rw [show splitFirst '?' ('?' :: q) = ([], some q) from by simp [splitFirst], h4]
      simp
    have hbb : bracketBad (u ++ '?' :: q) ↔ bracketBad u := by
      rw [bracketBad, bracketBad, hN]
    rw [cleanUrl_of_raw _ (by rw [hP]; exact hsemiu), cleanUrl_of_raw u hsemiu]
    by_cases hb : bracketBad u
    · rw [if_pos hb, if_pos (hbb.2 hb)]
    · rw [if_neg hb, if_neg (fun h => hb (hbb.1 h)), hS, hN, hP]

/-- Witness for the amended C4 at the spec's end-to-end example URL. -/
theorem normalize_collapses_witness :
    cleanUrl (("https://instagram.com/joespizza").data ++ ['/']) =
      cleanUrl ("https://instagram.com/joespizza").data ∧
    cleanUrl (("https://instagram.com/joespizza").data ++ '?' :: ("hl=en").data) =
      cleanUrl ("https://instagram.com/joespizza").data :=
  normalize_collapses ("https://instagram.com/joespizza").data ("hl=en").data
    (by decide) (by decide) (by decide) (by decide)

theorem urlparse_components (u : Str) (p : SplitResult) (h : urlparse u = some p) :
    p.scheme = rawScheme u ∧ p.netloc = rawNetloc u ∧
    (p.path = rawPath u ∨ p.path = splitParamsPath (rawPath u)) := by
  rw [urlparse, urlsplit_eq] at h
  by_cases hb : bracketBad u
  · rw [if_pos hb] at h
    exact absurd h (by simp)
  · rw [if_neg hb] at h
    simp only [Option.map_some'] at h
    by_cases hc : rawScheme u ∈ usesParams ∧ ';' ∈ rawPath u
    · rw [if_pos hc] at h
      obtain rfl := (Option.some_inj.1 h).symm
      exact ⟨rfl, rfl, Or.inr rfl⟩
    · rw [if_neg hc] at h
      obtain rfl := (Option.some_inj.1 h).symm
      exact ⟨rfl, rfl, Or.inl rfl⟩

theorem cleanUrl_core (u v : Str) (h : cleanUrl u = some v) :
    (∀ x ∈ v, x ≠ '?' ∧ x ≠ '#') ∧ v.getLast? ≠ some '/' ∧
    ∃ p, urlparse u = some p ∧
      v = rstripSlash (p.scheme ++ colonSlashSlash ++ p.netloc ++ p.path) := by
  rw [cleanUrl] at h
  cases hp : urlparse u with
  | none =>
    rw [hp] at h
    exact absurd h (by simp)
  | some p =>
    rw [hp] at h
    simp only [Option.map_some'] at h
    obtain rfl := (Option.some_inj.1 h).symm
    obtain ⟨hS, hN, hP⟩ := urlparse_components u p hp
    refine ⟨?_, rstripSlash_no_trailing _, p, rfl, rfl⟩
    intro x hx
    have hx' := mem_rstripSlash x _ hx
    rcases List.mem_append.1 hx' with hx' | hpath
    · rcases List.mem_append.1 hx' with hx' | hnet
      · rcases List.mem_append.1 hx' with hsch | hcss
        · rw [hS, rawScheme] at hsch
          obtain ⟨c, hc, rfl⟩ := mem_splitScheme_fst u x hsch
          exact toLower_schemeChar_ne c hc
        · have hx2 : x = ':' ∨ x = '/' := by
            simpa [colonSlashSlash, or_assoc] using hcss
          rcases hx2 with rfl | rfl
          · exact ⟨by decide, by decide⟩
          · exact ⟨by decide, by decide⟩
      · rw [hN, rawNetloc] at hnet
        have hstop := (mem_netlocStage_fst _ x hnet).1
        constructor <;> rintro rfl <;> simp [netlocStop] at hstop
    · have hxp : x ∈ rawPath u := by
        rcases hP with hP | hP
        · rw [hP] at hpath
          exact hpath
        · rw [hP] at hpath
          exact mem_splitParamsPath _ x hpath
      have hns := rawPath_no_special u
      constructor <;> rintro rfl
      · exact hns.1 hxp
      · exact hns.2 hxp

/-- C5 counterexample: `.rstrip("/")` removes every trailing slash, not
exactly one: a path with two trailing slashes loses both, so the result does
not still end in one. -/
theorem normalize_trailing_counterexample :
    cleanUrl ("http://instagram.com/a//").data = some ("http://instagram.com/a").data ∧
    ("http://instagram.com/a").data.getLast? ≠ some '/' := by
  decide

/-- C5 amended: for every raw URL accepted by the parser, normalization
strips the query string and fragment (the result contains no `'?'` and no
`'#'`), equals the parsed scheme, `"://"`, host and path with all trailing
slashes removed, and therefore never ends in `'/'`. -/
theorem normalize_canonical (u v : Str) (h : cleanUrl u = some v) :
    '?' ∉ v ∧ '#' ∉ v ∧ v.getLast? ≠ some '/' ∧
    ∃ p, urlparse u = some p ∧
      v = rstripSlash (p.scheme ++ colonSlashSlash ++ p.netloc ++ p.path) := by
  obtain ⟨hchars, htail, hrest⟩ := cleanUrl_core u v h
  exact ⟨fun hm => (hchars '?' hm).1 rfl, fun hm => (hchars '#' hm).2 rfl, htail, hrest⟩

/-- Witness for the amended C5 at a URL with query, fragment and trailing
slashes. -/
theorem normalize_canonical_witness :
    '?' ∉ ("http://i.co/a").data ∧ '#' ∉ ("http://i.co/a").data ∧
    ("http://i.co/a").data.getLast? ≠ some '/' ∧
    ∃ p, urlparse ("http://i.co/a//?x=1#f").data = some p ∧
      ("http://i.co/a").data =
        rstripSlash (p.scheme ++ colonSlashSlash ++ p.netloc ++ p.path) :=
  normalize_canonical ("http://i.co/a//?x=1#f").data ("http://i.co/a").data (by decide)

/-! ### Source tracking for discovery output (C10) -/

theorem collectUrls_sources (platform : Str) (hits : List RawHit) (urls : List Str)
    (h : collectUrls platform hits = some urls) :
    ∀ v ∈ urls, ∃ raw, cleanUrl raw = some v := by
  induction hits generalizing urls with
  | nil =>
    rw [collectUrls] at h
    obtain rfl := (Option.some_inj.1 h).symm
    simp
  | cons r rs ih =>
    rw [collectUrls] at h
    by_cases hin : strIn platform (hitUrl r)
    · rw [if_pos hin] at h
      cases hc : cleanUrl (hitUrl r) with
      | none =>
        rw [hc] at h
        exact absurd h (by simp)
      | some c =>
        rw [hc] at h
        obtain ⟨us, hus, rfl⟩ := Option.map_eq_some'.1 h
        intro v hv
        rcases List.mem_cons.1 hv with rfl | hv'
        · exact ⟨hitUrl r, hc⟩
        · exact ih us hus v hv'
    · rw [if_neg hin] at h
      exact ih urls h

/-- C10 counterexample: normalization is not idempotent on discovery output.
A scheme-less raw hit cleans to a URL starting with `"://"`; re-normalizing
that output prepends another `"://"` instead of leaving it unchanged. -/
theorem search_output_not_idempotent :
    searchHits ("i.co").data [hitOf "www.i.co/foo"] = some [("://www.i.co/foo").data] ∧
    cleanUrl ("://www.i.co/foo").data = some ("://://www.i.co/foo").data ∧
    ("://://www.i.co/foo").data ≠ ("://www.i.co/foo").data := by
  decide

/-- C10 amended: every URL in the list returned by discovery is in canonical
form (no query string, no fragment, it does not end with `'/'`) and the list
has no duplicates; re-normalization, however, is not idempotent in general
(see the counterexample). -/
theorem search_output_canonical (platform : Str) (hits : List RawHit)
    (urls : List Str) (h : searchHits platform hits = some urls) :
    urls.Nodup ∧ ∀ v ∈ urls, '?' ∉ v ∧ '#' ∉ v ∧ v.getLast? ≠ some '/' := by
  rw [searchHits] at h
  cases hc : collectUrls platform hits with
  | none =>
    rw [hc] at h
    exact absurd h (by simp)
  | some raw =>
    rw [hc] at h
    obtain ⟨raw', hraw, rfl⟩ := Option.map_eq_some'.1 h
    obtain rfl : raw = raw' := by injection hraw
    constructor
    · rw [dedupAcc_nil_eq_firstOcc]
      exact firstOcc_nodup raw
    · intro v hv
      obtain ⟨src, hsrc⟩ :=
        collectUrls_sources platform hits raw hc v ((mem_dedupAcc_nil v raw).1 hv)
      obtain ⟨hchars, htail, -⟩ := cleanUrl_core src v hsrc
      exact ⟨fun hm => (hchars '?' hm).1 rfl, fun hm => (hchars '#' hm).2 rfl, htail⟩

/-- Witness for the amended C10 at a concrete hit list with a duplicate and
decorated URLs. -/
theorem search_output_canonical_witness :
    [("http://i.co/a").data, ("http://i.co/b").data].Nodup ∧
    ∀ v ∈ [("http://i.co/a").data, ("http://i.co/b").data],
      '?' ∉ v ∧ '#' ∉ v ∧ v.getLast? ≠ some '/' :=
  search_output_canonical ("i.co").data
    [hitOf "http://i.co/a/?x=1", hitOf "http://i.co/b#f", hitOf "http://i.co/a"]
    [("http://i.co/a").data, ("http://i.co/b").data] (by decide)

/-! ### First non-empty segment characterization (C6) -/

theorem headD_filter_spec (L : List Str) :
    ((∀ s ∈ L, s = []) ∧ (L.filter (fun s => s ≠ [])).headD [] = []) ∨
    (∃ l1 x l2, L = l1 ++ x :: l2 ∧ (∀ s ∈ l1, s = []) ∧ x ≠ [] ∧
      (L.filter (fun s => s ≠ [])).headD [] = x) := by
  induction L with
  | nil => exact Or.inl ⟨by simp, rfl⟩
  | cons a t ih =>
    by_cases ha : a = []
    · subst ha
      rw [List.filter_cons, if_neg (by simp)]
      rcases ih with ⟨h1, h2⟩ | ⟨l1, x, l2, he, h1, hx, hv⟩
      · refine Or.inl ⟨?_, h2⟩
        intro s hs
        rcases List.mem_cons.1 hs with rfl | hs'
        · rfl
        · exact h1 s hs'
      · refine Or.inr ⟨[] :: l1, x, l2, by rw [he]; rfl, ?_, hx, hv⟩
        intro s hs
        rcases List.mem_cons.1 hs with rfl | hs'
        · rfl
        · exact h1 s hs'
    · refine Or.inr ⟨[], a, t, rfl, by simp, ha, ?_⟩
      rw [List.filter_cons, if_pos (by simpa using ha)]
      rfl

/-- C6 counterexample: identifier extraction is not error-free for every
input: a URL whose authority has an unbalanced `'['` makes `urlparse` raise
`ValueError ("Invalid IPv6 URL")`, which propagates out of
`ensure_username_from_url`. -/
theorem username_error_counterexample :
    ensure_username_from_url ("http://[ab/cd").data = none := by
  decide

/-- C6 amended: for every URL the parser accepts (no unbalanced square
bracket in the authority), identifier extraction signals no error and splits
the parsed path on `'/'`, discards empty segments, and returns the first
remaining segment, or the empty string when every segment is empty; for URLs
with an unbalanced bracket in the authority, the parser's `ValueError`
propagates. -/
theorem username_extraction (u : Str) (p : SplitResult) (h : urlparse u = some p) :
    ∃ un, ensure_username_from_url u = some un ∧
      ((un = [] ∧ ∀ s ∈ splitSep '/' p.path, s = []) ∨
       (∃ l1 l2, splitSep '/' p.path = l1 ++ un :: l2 ∧
         (∀ s ∈ l1, s = []) ∧ un ≠ [])) := by
  refine ⟨((splitSep '/' p.path).filter (fun s => s ≠ [])).headD [], ?_, ?_⟩
  · rw [ensure_username_from_url, h]
    rfl
  · rcases headD_filter_spec (splitSep '/' p.path) with ⟨h1, h2⟩ | ⟨l1, x, l2, he, h1, hx, hv⟩
    · exact Or.inl ⟨h2, h1⟩
    · refine Or.inr ⟨l1, l2, ?_, h1, ?_⟩
      · rw [hv, he]
      · rw [hv]
        exact hx

/-- Witness for the amended C6 at a URL with leading empty segments, a
query and a fragment. -/
theorem username_extraction_witness :
    ∃ un, ensure_username_from_url ("http://i.co//joe/x?q#f").data = some un ∧
      ((un = [] ∧ ∀ s ∈ splitSep '/' ("//joe/x").data, s = []) ∨
       (∃ l1 l2, splitSep '/' ("//joe/x").data = l1 ++ un :: l2 ∧
         (∀ s ∈ l1, s = []) ∧ un ≠ [])) :=
  username_extraction ("http://i.co//joe/x?q#f").data
    ⟨("http").data, ("i.co").data, ("//joe/x").data, ("q").data, ("f").data⟩
    (by decide)
